import Mathlib

/-!
Verification development for `west-nix.py`, the `west nix` extension command.
The `do_run` method and its helpers are shallowly embedded below: external
collaborators (the `nix-prefetch-git` subprocess, `hashlib.sha256`,
`os.path.relpath`, `Path.exists`, `Path.relative_to`, the manifest, the
Zephyr blobs extension, `ZEPHYR_BASE`) are oracle fields of `World`, and the
observable interactions of a run (prefetch subprocess calls, opening and
writing the `west.nix` output file, writing the cache file) are recorded as
an ordered `Effect` trace.
-/

namespace WestNix

/-- A manifest project as consumed by `do_run`: `url = ""` models a falsy
`project.url` (a purely local source); `isActive` is the result of
`manifest.is_active(project)`. -/
structure Project where
  name : String
  path : String
  url : String
  revision : String
  isActive : Bool
deriving DecidableEq

/-- One blob record returned by the Zephyr `blobs` extension command
(the fields of the dict that `do_run` reads). -/
structure Blob where
  abspath : String
  url : String
  sha256 : String
deriving DecidableEq

/-- The JSON object stored under one cache key: an association list of
string fields (`url`, `rev`, `hash`). -/
abbrev EntryFields := List (String × String)

/-- The `project_hashes` table of the cache file: cache key → entry. -/
abbrev ProjectHashes := List (String × EntryFields)

/-- Python `dict.get`: first binding of a key in an association list. -/
def alookup (k : String) : List (String × α) → Option α
  | [] => none
  | (k', v) :: rest => if k' = k then some v else alookup k rest

/-- Python `d[k] = v` on an insertion-ordered dict: replace the existing
binding in place, or append a new one at the end. -/
def dictInsert (k : String) (v : α) : List (String × α) → List (String × α)
  | [] => [(k, v)]
  | (k', v') :: rest => if k' = k then (k, v) :: rest else (k', v') :: dictInsert k v rest

/-- State of the on-disk cache file `west-nix-cache.json` when the run starts:
absent, present but not syntactically valid JSON, or a parsed top-level JSON
object. In the `valid` case the optional `project_hashes` member carries the
table and `otherKeys` names any further top-level members (which the code
ignores on read). -/
inductive CacheFile
  | missing
  | invalidJson
  | valid (project_hashes : Option ProjectHashes) (otherKeys : List String)
deriving DecidableEq

/-- The exceptions that `open` + `json.load` can raise on the modelled
cache-file states. -/
inductive PyErr
  | fileNotFound
  | jsonDecodeError
deriving DecidableEq

/-- The body of the `try:` block — `open(cache_path)` plus `json.load`. -/
def readCacheJson : CacheFile → Except PyErr (Option ProjectHashes × List String)
  | CacheFile.missing => Except.error PyErr.fileNotFound
  | CacheFile.invalidJson => Except.error PyErr.jsonDecodeError
  | CacheFile.valid ph ks => Except.ok (ph, ks)

/-- Cache loading as written in `do_run`: the `except (FileNotFoundError,
json.JSONDecodeError)` clause turns both failures into an empty cache, and
`cache.setdefault("project_hashes", \x7b\x7d)` yields the table. -/
def loadCacheTry (f : CacheFile) : Except PyErr ProjectHashes :=
  match readCacheJson f with
  | Except.ok (ph, _) => Except.ok (ph.getD [])
  | Except.error PyErr.fileNotFound => Except.ok []
  | Except.error PyErr.jsonDecodeError => Except.ok []

/-- The loaded `project_hashes` table. -/
def loadPH (f : CacheFile) : ProjectHashes :=
  match loadCacheTry f with
  | Except.ok t => t
  | Except.error _ => []

/-- Fatal errors that abort `do_run`. -/
inductive Err
  | prefetchFailed (url rev : String)
  | prefetchKeyError (url rev : String)
  | outputWriteFailed
  | zephyrRelError
deriving DecidableEq

/-- Observable interactions of one run, in program order. -/
inductive Effect
  | prefetchGit (url rev : String)
  | openOutput
  | printOutput (s : String)
  | writeCache (ph : ProjectHashes)
deriving DecidableEq

/-- The inputs and external collaborators of one `west nix` invocation.
`prefetch` models the `nix-prefetch-git` subprocess: `none` is a non-zero
exit (`CalledProcessError`) or unparsable stdout, `some obj` the parsed JSON
object. `sha256` is the hex digest of `hashlib.sha256` over the given bytes.
`failAtPrint` injects an OS write failure at the n-th `print` into
`west.nix` (none: all writes succeed). -/
structure World where
  projects : List Project
  blobs : List Blob
  zephyrBase : Option String
  sha256 : String → String
  prefetch : String → String → Option (List (String × String))
  fsExists : String → Bool
  relpath : String → String → String
  relativeTo : String → String → Option String
  topDir : String
  topDirRelManifest : String
  failAtPrint : Option Nat

/-- The bytes fed to the cache-key digest: `update(url)`, `update(revision)`,
`update(b"manifest-rev")` — a plain concatenation with no separators. -/
def cacheKeyData (url rev : String) : String :=
  url ++ rev ++ ("manifest-rev")

/-- The cache key: `hashlib.sha256` hexdigest of the concatenated data. -/
def cacheKey (w : World) (url rev : String) : String :=
  w.sha256 (cacheKeyData url rev)

/-- The entry written into `new_project_hashes`. -/
def mkEntry (url rev h : String) : EntryFields :=
  [(("url"), url), (("rev"), rev), (("hash"), h)]

/-- `project_hashes.get(cache_key, \x7b\x7d).get("hash")`. -/
def hashLookup (ph : ProjectHashes) (k : String) : Option String :=
  match alookup k ph with
  | some e => alookup ("hash") e
  | none => none

/-- Source-hash resolution for one remote project: consult the loaded cache,
otherwise run `nix-prefetch-git` and read the `hash` member of its JSON
output (`prefetch["hash"]`, a `KeyError` when absent). -/
def resolveHash (w : World) (ph : ProjectHashes) (url rev : String) :
    List Effect × Except Err String :=
  match hashLookup ph (cacheKey w url rev) with
  | some h => ([], Except.ok h)
  | none =>
    match w.prefetch url rev with
    | none => ([Effect.prefetchGit url rev], Except.error (Err.prefetchFailed url rev))
    | some obj =>
      match alookup ("hash") obj with
      | none => ([Effect.prefetchGit url rev], Except.error (Err.prefetchKeyError url rev))
      | some h => ([Effect.prefetchGit url rev], Except.ok h)

/-- `str.split(sep)` for a one-character separator, on explicit characters:
always returns one piece more than the number of separators. -/
def splitCharAux (sep : Char) : List Char → List Char → List String
  | [], acc => [String.mk acc.reverse]
  | c :: rest, acc =>
    if c = sep then String.mk acc.reverse :: splitCharAux sep rest []
    else splitCharAux sep rest (c :: acc)

/-- `str.split(sep)` for a one-character separator. -/
def splitChar (sep : Char) (s : String) : List String :=
  splitCharAux sep s.data []

/-- `sep.join(ls)`. -/
def joinSep (sep : String) : List String → String
  | [] => ""
  | [x] => x
  | x :: xs => x ++ sep ++ joinSep sep xs

/-- `"".join(ls)`. -/
def joinAll (ls : List String) : String :=
  String.mk (ls.foldr (fun s acc => s.data ++ acc) [])

/-- A `pathlib.PurePosixPath`: absolute flag plus components, with empty and
`.` components dropped. -/
structure PPath where
  isAbs : Bool
  parts : List String
deriving DecidableEq

/-- `Path(s)` for a POSIX string. -/
def pathOf (s : String) : PPath :=
  ⟨(match s.data with | c :: _ => c = '/' | [] => false : Bool),
    (splitChar '/' s).filter (fun c => c != "" && c != ".")⟩

/-- `str(path)`. -/
def pstr (p : PPath) : String :=
  if p.isAbs then "/" ++ joinSep ("/") p.parts
  else if p.parts.isEmpty then "." else joinSep ("/") p.parts

/-- `a / b` on paths. -/
def pjoin (a b : PPath) : PPath :=
  if b.isAbs then b else ⟨a.isAbs, a.parts ++ b.parts⟩

/-- `path.parent`. -/
def pparent (p : PPath) : PPath :=
  ⟨p.isAbs, p.parts.dropLast⟩

/-- The `LinkPath` dataclass. -/
structure LinkPath where
  path : PPath
  src : String
  is_dir : Bool
deriving DecidableEq

/-- A line of one or more spaces/tabs only (`textwrap`'s
`_whitespace_only_re`). -/
def lineWsOnly (s : String) : Bool :=
  (!s.data.isEmpty) && s.data.all (fun c => c == ' ' || c == '\t')

/-- Leading space/tab run of a line. -/
def leadingWs (s : String) : List Char :=
  s.data.takeWhile (fun c => c == ' ' || c == '\t')

/-- Longest common start of two character lists. -/
def commonStart : List Char → List Char → List Char
  | c :: cs, d :: ds => if c = d then c :: commonStart cs ds else []
  | _, _ => []

/-- The margin `textwrap.dedent` computes: fold of the longest common start
over the indents of all non-blank lines. -/
def marginOf (ls : List String) : Option (List Char) :=
  ls.foldl
    (fun acc l =>
      if l.data.isEmpty then acc
      else
        match acc with
        | none => some (leadingWs l)
        | some m => some (commonStart m (leadingWs l)))
    none

/-- Strip the margin from a line when it starts with it (the effect of
dedent's `re.sub`). -/
def dropMargin (m : List Char) (l : String) : String :=
  if m.isPrefixOf l.data then ⟨l.data.drop m.length⟩ else l

/-- `textwrap.dedent` for newline-separated text: blank out whitespace-only
lines, compute the common margin, strip it from every line. -/
def pyDedent (s : String) : String :=
  let ls := (splitChar '\n' s).map (fun l => if lineWsOnly l then "" else l)
  match marginOf ls with
  | none => joinSep ("\n") ls
  | some m => joinSep ("\n") (ls.map (dropMargin m))

/-- `str.splitlines(keepends=True)` for newline-separated text. -/
def splitKeepNlAux : List Char → List Char → List String
  | [], acc => if acc.isEmpty then [] else [String.mk acc.reverse]
  | c :: rest, acc =>
    if c = '\n' then String.mk (acc.reverse ++ ['\n']) :: splitKeepNlAux rest []
    else splitKeepNlAux rest (c :: acc)

/-- Split a string into lines keeping the line terminators. -/
def splitKeepNl (s : String) : List String :=
  splitKeepNlAux s.data []

/-- `textwrap.indent`'s default predicate: the line has a non-whitespace
character. -/
def hasContent (s : String) : Bool :=
  s.data.any (fun c => !(c == ' ' || c == '\t' || c == '\n' || c == '\r'))

/-- `textwrap.indent`: prefix every line that has content. -/
def pyIndent (pre s : String) : String :=
  joinAll ((splitKeepNl s).map (fun l => if hasContent l then pre ++ l else l))

/-- The `fetchgit` source fragment built for a remote project (the dedented
f-string of `do_run`). -/
def fetchgitSrc (url rev h : String) : String :=
  pyDedent ("\n                        fetchgit \x7b\n                            url = \"" ++ url ++ "\";\n                            rev = \"" ++ rev ++ "\";\n                            branchName = \"manifest-rev\";\n                            hash = \"" ++ h ++ "\";\n                        \x7d")

/-- The source fragment built for a local project:
a quoted interpolation of the relative path. -/
def localSrc (rel : String) : String :=
  "\"$\x7b" ++ rel ++ "\x7d\""

/-- The `fetchurl` source fragment built for a blob. -/
def fetchurlSrc (url sha : String) : String :=
  pyDedent ("\n                    fetchurl \x7b\n                        url = \"" ++ url ++ "\";\n                        hash = \"sha256:" ++ sha ++ "\";\n                    \x7d")

/-- `str(Path(project.path) / "zephyr" / "module.yml")` — the existence
probe for a Zephyr module descriptor. -/
def moduleYmlPath (projPath : String) : String :=
  pstr (pjoin (pathOf projPath) ⟨false, [("zephyr"), ("module.yml")]⟩)

/-- The project/blob loop of `do_run`, in manifest order: skip inactive
projects, resolve remote sources through the cache or `nix-prefetch-git`,
record the entry in `new_project_hashes`, build the `LinkPath` list and the
Zephyr module list. The returned trace holds the prefetch calls made. -/
def processProjects (w : World) (ph : ProjectHashes) :
    List Project → List LinkPath → ProjectHashes → List String →
    List Effect × Except Err (List LinkPath × ProjectHashes × List String)
  | [], paths, nph, mods => ([], Except.ok (paths, nph, mods))
  | p :: rest, paths, nph, mods =>
    if p.isActive then
      if p.url ≠ "" then
        match resolveHash w ph p.url p.revision with
        | (tr, Except.error e) => (tr, Except.error e)
        | (tr, Except.ok h) =>
          let nph' := dictInsert (cacheKey w p.url p.revision) (mkEntry p.url p.revision h) nph
          let paths' := paths ++ [⟨pathOf p.path, fetchgitSrc p.url p.revision h, true⟩]
          let mods' := if w.fsExists (moduleYmlPath p.path) then mods ++ [p.path] else mods
          let r := processProjects w ph rest paths' nph' mods'
          (tr ++ r.1, r.2)
      else
        let paths' := paths ++
          [⟨pathOf p.path, localSrc (pstr (pjoin (pathOf w.topDirRelManifest) (pathOf p.path))), true⟩]
        let mods' := if w.fsExists (moduleYmlPath p.path) then mods ++ [p.path] else mods
        processProjects w ph rest paths' nph mods'
    else processProjects w ph rest paths nph mods

/-- The blob loop: one single-file link per blob, destination relative to the
workspace top directory. -/
def blobLinks (w : World) : List LinkPath :=
  w.blobs.map (fun b => ⟨pathOf (w.relpath b.abspath w.topDir), fetchurlSrc b.url b.sha256, false⟩)

/-- The fixed preamble printed at the top of `west.nix`. -/
def preambleText : String :=
  "\n\x7b lib, runCommand, lndir, fetchgit, fetchurl \x7d:\n\nrunCommand \"west-workspace\" \x7b\nnativeBuildInputs = [ lndir ];\n\x7d \x27\x27"

/-- The script fragment printed for one `LinkPath` (directory overlay via
`lndir`, or single-file `ln -s`); the source expression is wrapped in
`lib.escapeShellArg` and indented, the destination path is wrapped in plain
single quotes. -/
def renderLink (lp : LinkPath) : String :=
  let src := pyIndent ("        ") ("$\x7blib.escapeShellArg (" ++ lp.src ++ ")\x7d")
  if lp.is_dir then
    "\n    mkdir -p \"$out\"/\x27" ++ pstr lp.path ++ "\x27\n    lndir -silent \\\n" ++ src
      ++ " \\\n        \"$out\"/\x27" ++ pstr lp.path ++ "\x27"
  else
    "\n    mkdir -p \"$out\"/\x27" ++ pstr (pparent lp.path) ++ "\x27\n    ln -s \\\n" ++ src
      ++ " \\\n        \"$out\"/\x27" ++ pstr lp.path ++ "\x27"

/-- The `.zephyr-env` fragment printed when `ZEPHYR_BASE` is set. -/
def zephyrPrintString (zbp : String) (mods : List String) : String :=
  "\n    cat << EOF > \"$out/.zephyr-env\"\n    export ZEPHYR_BASE=$\x7blib.escapeShellArg \""
    ++ zbp
    ++ "\"\x7d\n    export ZEPHYR_MODULES=$\x7blib.escapeShellArg \""
    ++ joinSep (";") (mods.map (fun m => "$\x7bplaceholder \"out\"\x7d/" ++ m))
    ++ "\"\x7d\n    EOF\n\x27\x27"

/-- Sequential `print(..., file=west_nix)` calls: each appends a newline;
`failAtPrint` makes the n-th write raise `OSError`. Returns the next print
index. -/
def emitPrints (failAt : Option Nat) (i : Nat) :
    List String → List Effect × Except Err Nat
  | [] => ([], Except.ok i)
  | s :: rest =>
    if failAt = some i then ([], Except.error Err.outputWriteFailed)
    else
      let r := emitPrints failAt (i + 1) rest
      (Effect.printOutput (s ++ "\n") :: r.1, r.2)

/-- The `if zephyr_base is not None` block: compute
`zephyr_base.relative_to(top_dir)` (a `ValueError` when not relative) and
print the environment-export fragment. -/
def zephyrEmit (w : World) (i : Nat) (mods : List String) :
    List Effect × Except Err Unit :=
  match w.zephyrBase with
  | none => ([], Except.ok ())
  | some zb =>
    match w.relativeTo zb w.topDir with
    | none => ([], Except.error Err.zephyrRelError)
    | some rel =>
      if w.failAtPrint = some i then ([], Except.error Err.outputWriteFailed)
      else
        ([Effect.printOutput
            (zephyrPrintString (pstr (pjoin (pathOf ("$\x7bplaceholder \"out\"\x7d")) (pathOf rel))) mods ++ "\n")],
          Except.ok ())

/-- The `with open(west_nix_path, "w")` block: open the output file, print
the preamble, one fragment per `LinkPath`, the optional Zephyr fragment, and
finally (still inside the block, only after every output write succeeded)
write the new cache. -/
def emitPhase (w : World) (paths : List LinkPath) (nph : ProjectHashes)
    (mods : List String) : List Effect × Except Err Unit :=
  match emitPrints w.failAtPrint 0 (preambleText :: (paths ++ blobLinks w).map renderLink) with
  | (tr2, Except.error e) => (Effect.openOutput :: tr2, Except.error e)
  | (tr2, Except.ok n) =>
    match zephyrEmit w n mods with
    | (tr3, Except.error e) => (Effect.openOutput :: (tr2 ++ tr3), Except.error e)
    | (tr3, Except.ok _) =>
      (Effect.openOutput :: (tr2 ++ (tr3 ++ [Effect.writeCache nph])), Except.ok ())

/-- `do_run` given the already-loaded `project_hashes` table: process the
projects and blobs, then emit `west.nix` and the new cache. -/
def doRunPH (w : World) (ph : ProjectHashes) : List Effect × Except Err Unit :=
  match processProjects w ph w.projects [] [] [] with
  | (tr, Except.error e) => (tr, Except.error e)
  | (tr, Except.ok (paths, nph, mods)) =>
    (tr ++ (emitPhase w paths nph mods).1, (emitPhase w paths nph mods).2)

/-- One full `do_run` invocation against a cache-file state. -/
def doRun (w : World) (cf : CacheFile) : List Effect × Except Err Unit :=
  doRunPH w (loadPH cf)

/-- Whether an effect is a `nix-prefetch-git` call. -/
def isPrefetchE : Effect → Bool
  | Effect.prefetchGit _ _ => true
  | _ => false

/-- Whether an effect is a write into `west.nix`. -/
def isPrintE : Effect → Bool
  | Effect.printOutput _ => true
  | _ => false

/-- Number of `nix-prefetch-git` invocations in a trace. -/
def countPrefetch (tr : List Effect) : Nat :=
  tr.countP isPrefetchE

/-- Fold step collecting the last cache write of a trace. -/
def writeStep (acc : Option ProjectHashes) : Effect → Option ProjectHashes
  | Effect.writeCache c => some c
  | _ => acc

/-- The last cache content written in a trace, if any. -/
def writtenCache (tr : List Effect) : Option ProjectHashes :=
  tr.foldl writeStep none

/-- The cache-file state after a run: the written table when the run wrote
one, otherwise the prior file untouched. -/
def cacheAfter (w : World) (cf : CacheFile) : CacheFile :=
  match writtenCache (doRun w cf).1 with
  | some c => CacheFile.valid (some c) []
  | none => cf

/-- The text of a print effect. -/
def printText : Effect → Option String
  | Effect.printOutput s => some s
  | _ => none

/-- The bytes of the `west.nix` file produced by a run: the concatenation of
everything printed into it. -/
def outputOf (w : World) (cf : CacheFile) : String :=
  joinAll (((doRun w cf).1).filterMap printText)

/-- Cache keys of the active remote projects of a project list, in order and
with multiplicity. -/
def keysOfList (w : World) (l : List Project) : List String :=
  (l.filter (fun p => p.isActive && p.url != "")).map
    (fun p => cacheKey w p.url p.revision)

/-- Cache keys of the active remote projects of a run. -/
def activeKeys (w : World) : List String :=
  keysOfList w w.projects

/-- Active remote projects whose key has no hash in the given table. -/
def missCount (w : World) (cf : CacheFile) : Nat :=
  (w.projects.filter
    (fun p => p.isActive && p.url != ""
      && (hashLookup (loadPH cf) (cacheKey w p.url p.revision)).isNone)).length

/-- POSIX shell lexing of a single-quoted literal body: everything up to the
next single quote. -/
def scanQuoted : List Char → Option (List Char × List Char)
  | [] => none
  | c :: rest =>
    if c = '\x27' then some ([], rest)
    else (scanQuoted rest).map (fun pr => (c :: pr.1, pr.2))

/-- POSIX shell lexing of a single-quoted literal: an opening quote, the
body, the rest of the input after the closing quote. `none` when the text
does not start with a quote or the quote is unterminated. -/
def readSingleQuoted : List Char → Option (List Char × List Char)
  | [] => none
  | c :: rest => if c = '\x27' then scanQuoted rest else none

/-- A minimal workspace used to instantiate the theorems below on concrete
runs: no projects, no blobs, no `ZEPHYR_BASE`, an identity digest oracle and
a failing prefetch oracle. -/
def baseWorld : World where
  projects := []
  blobs := []
  zephyrBase := none
  sha256 := fun s => s
  prefetch := fun _ _ => none
  fsExists := fun _ => false
  relpath := fun a _ => a
  relativeTo := fun _ _ => none
  topDir := ("/t")
  topDirRelManifest := (".")
  failAtPrint := none

/-- Two distinct active projects that share the same `(url, revision)`. -/
def c2proj1 : Project := ⟨("p1"), ("path1"), ("u"), ("r"), true⟩

/-- Second project of the duplicate pair. -/
def c2proj2 : Project := ⟨("p2"), ("path2"), ("u"), ("r"), true⟩

/-- A workspace holding the duplicate pair, with a succeeding prefetch
oracle; parametric in the digest oracle. -/
def c2world (f : String → String) : World :=
  { baseWorld with
    projects := [c2proj1, c2proj2]
    sha256 := f
    prefetch := fun _ _ => some [(("hash"), ("H"))] }

/-- A loaded cache table holding a hash for the key of `("u", "r")` under
the identity digest. -/
def c3ph : ProjectHashes := [(("urmanifest-rev"), mkEntry ("u") ("r") ("H"))]

/-- A workspace whose prefetch output has only a `sha256` field. -/
def c10world : World :=
  { baseWorld with prefetch := fun _ _ => some [(("sha256"), ("S"))] }

/-- A cache table whose entry for the key of `("u", "r")` lacks a `hash`
field. -/
def c10ph : ProjectHashes := [(("urmanifest-rev"), [(("url"), ("u"))])]

/-- One active remote project over a failing prefetch oracle. -/
def c5world : World :=
  { baseWorld with projects := [⟨("p"), ("pp"), ("u"), ("r"), true⟩] }

/-- A workspace whose first output write fails. -/
def c8world : World := { baseWorld with failAtPrint := some 0 }

/-- One active remote project, fully served by the cache below. -/
def c7world : World :=
  { baseWorld with projects := [⟨("p"), ("pp"), ("u"), ("r"), true⟩] }

/-- A cache file holding the hash for `c7world`'s only project. -/
def c7cf : CacheFile :=
  CacheFile.valid (some [(("urmanifest-rev"), mkEntry ("u") ("r") ("H"))]) []

/-- Projects B (already cached) and D (new) of the garbage-collection
example. -/
def c4projB : Project := ⟨("B"), ("pb"), ("uB"), ("r"), true⟩

/-- The new project D. -/
def c4projD : Project := ⟨("D"), ("pd"), ("uD"), ("r"), true⟩

/-- A workspace with active projects B and D and a prefetch oracle
answering `HD`. -/
def c4world : World :=
  { baseWorld with
    projects := [c4projB, c4projD]
    prefetch := fun _ _ => some [(("hash"), ("HD"))] }

/-- A prior cache holding entries A, B, C. -/
def c4cf : CacheFile :=
  CacheFile.valid
    (some [(("kA"), mkEntry ("uA") ("rA") ("HA")),
           (("uBrmanifest-rev"), mkEntry ("uB") ("r") ("HB")),
           (("kC"), mkEntry ("uC") ("rC") ("HC"))]) []

/-- The cache persisted by the run over `c4world` and `c4cf`: exactly B
(preserved) and D (freshly prefetched). -/
def c4nc : ProjectHashes :=
  [(("uBrmanifest-rev"), mkEntry ("uB") ("r") ("HB")),
   (("uDrmanifest-rev"), mkEntry ("uD") ("r") ("HD"))]

/-- One active local project whose destination path contains a single
quote. -/
def c6world : World :=
  { baseWorld with projects := [⟨("p"), ("a\x27b"), (""), (""), true⟩] }

theorem alookup_dictInsert_self (k : String) (v : α) (l : List (String × α)) :
    alookup k (dictInsert k v l) = some v := by
  induction l with
  | nil => simp [dictInsert, alookup]
  | cons hd tl ih =>
    obtain ⟨k', v'⟩ := hd
    by_cases h : k' = k
    · subst h
      simp [dictInsert, alookup]
    · simp [dictInsert, alookup, h, ih]

theorem alookup_dictInsert_ne (k' k : String) (v : α) (l : List (String × α))
    (h : k' ≠ k) : alookup k' (dictInsert k v l) = alookup k' l := by
  induction l with
  | nil => simp [dictInsert, alookup, Ne.symm h]
  | cons hd tl ih =>
    obtain ⟨a, b⟩ := hd
    by_cases ha : a = k
    · subst ha
      simp [dictInsert, alookup, Ne.symm h]
    · by_cases ha' : a = k'
      · subst ha'
        simp [dictInsert, alookup, ha]
      · simp [dictInsert, alookup, ha, ha', ih]

theorem mem_keys_dictInsert (a k : String) (v : α) (l : List (String × α)) :
    a ∈ (dictInsert k v l).map Prod.fst ↔ a = k ∨ a ∈ l.map Prod.fst := by
  induction l with
  | nil => simp [dictInsert]
  | cons hd tl ih =>
    obtain ⟨k', v'⟩ := hd
    by_cases h : k' = k
    · subst h
      simp [dictInsert]
    · simp only [dictInsert, if_neg h, List.map_cons, List.mem_cons, ih]
      tauto

theorem nodup_keys_dictInsert (k : String) (v : α) (l : List (String × α))
    (h : (l.map Prod.fst).Nodup) : ((dictInsert k v l).map Prod.fst).Nodup := by
  induction l with
  | nil => simp [dictInsert]
  | cons hd tl ih =>
    obtain ⟨k', v'⟩ := hd
    simp only [List.map_cons, List.nodup_cons] at h
    by_cases hk : k' = k
    · subst hk
      simpa [dictInsert] using h
    · simp only [dictInsert, if_neg hk, List.map_cons, List.nodup_cons]
      refine ⟨?_, ih h.2⟩
      rw [mem_keys_dictInsert]
      rintro (rfl | hmem)
      · exact hk rfl
      · exact h.1 hmem

theorem alookup_hash_mkEntry (u r h : String) :
    alookup ("hash") (mkEntry u r h) = some h := rfl

theorem hashLookup_dictInsert_self (k u r h : String) (l : ProjectHashes) :
    hashLookup (dictInsert k (mkEntry u r h) l) k = some h := by
  simp [hashLookup, alookup_dictInsert_self, alookup_hash_mkEntry]

theorem hashLookup_dictInsert_ne (k' k : String) (v : EntryFields) (l : ProjectHashes)
    (h : k' ≠ k) : hashLookup (dictInsert k v l) k' = hashLookup l k' := by
  simp [hashLookup, alookup_dictInsert_ne k' k v l h]

theorem resolveHash_hit (w : World) (ph : ProjectHashes) (u r hs : String)
    (h : hashLookup ph (cacheKey w u r) = some hs) :
    resolveHash w ph u r = ([], Except.ok hs) := by
  unfold resolveHash
  rw [h]

theorem resolveHash_fst_of_none (w : World) (ph : ProjectHashes) (u r : String)
    (h : hashLookup ph (cacheKey w u r) = none) :
    (resolveHash w ph u r).1 = [Effect.prefetchGit u r] := by
  unfold resolveHash
  rw [h]
  rcases w.prefetch u r with _ | obj
  · rfl
  · rcases hh : alookup ("hash") obj with _ | hv <;> simp [hh]

theorem resolveHash_trace (w : World) (ph : ProjectHashes) (u r : String) :
    (resolveHash w ph u r).1 = [] ∨ (resolveHash w ph u r).1 = [Effect.prefetchGit u r] := by
  rcases h : hashLookup ph (cacheKey w u r) with _ | hs
  · exact Or.inr (resolveHash_fst_of_none w ph u r h)
  · rw [resolveHash_hit w ph u r hs h]
    exact Or.inl rfl

theorem resolveHash_trace_prefetch (w : World) (ph : ProjectHashes) (u r : String) :
    ∀ e ∈ (resolveHash w ph u r).1, isPrefetchE e = true := by
  rcases resolveHash_trace w ph u r with h | h <;> rw [h] <;> intro e he
  · simp at he
  · simp at he
    subst he
    rfl

theorem resolveHash_error_kind (w : World) (ph : ProjectHashes) (u r : String) (e : Err)
    (h : (resolveHash w ph u r).2 = Except.error e) :
    e = Err.prefetchFailed u r ∨ e = Err.prefetchKeyError u r := by
  unfold resolveHash at h
  split at h
  · simp at h
  · split at h
    · simp at h
      exact Or.inl h.symm
    · split at h
      · simp at h
        exact Or.inr h.symm
      · simp at h

theorem resolveHash_miss_ok (w : World) (ph : ProjectHashes) (u r hs : String)
    (hm : hashLookup ph (cacheKey w u r) = none)
    (h : (resolveHash w ph u r).2 = Except.ok hs) :
    resolveHash w ph u r = ([Effect.prefetchGit u r], Except.ok hs) := by
  have h1 := resolveHash_fst_of_none w ph u r hm
  rcases he : resolveHash w ph u r with ⟨tr, rr⟩
  rw [he] at h h1
  simp at h h1
  rw [h1, h]

theorem resolveHash_congr (w : World) (ph₁ ph₂ : ProjectHashes) (u r : String)
    (h : hashLookup ph₁ (cacheKey w u r) = hashLookup ph₂ (cacheKey w u r)) :
    resolveHash w ph₁ u r = resolveHash w ph₂ u r := by
  unfold resolveHash
  rw [h]

theorem processProjects_inactive (w : World) (ph : ProjectHashes) (p : Project)
    (rest : List Project) (paths : List LinkPath) (nph : ProjectHashes) (mods : List String)
    (hA : p.isActive = false) :
    processProjects w ph (p :: rest) paths nph mods =
      processProjects w ph rest paths nph mods := by
  conv_lhs => rw [processProjects.eq_def]
  simp [hA]

theorem processProjects_local (w : World) (ph : ProjectHashes) (p : Project)
    (rest : List Project) (paths : List LinkPath) (nph : ProjectHashes) (mods : List String)
    (hA : p.isActive = true) (hU : p.url = "") :
    processProjects w ph (p :: rest) paths nph mods =
      processProjects w ph rest
        (paths ++ [⟨pathOf p.path,
          localSrc (pstr (pjoin (pathOf w.topDirRelManifest) (pathOf p.path))), true⟩])
        nph
        (if w.fsExists (moduleYmlPath p.path) then mods ++ [p.path] else mods) := by
  conv_lhs => rw [processProjects.eq_def]
  simp [hA, hU]

theorem processProjects_url_error (w : World) (ph : ProjectHashes) (p : Project)
    (rest : List Project) (paths : List LinkPath) (nph : ProjectHashes) (mods : List String)
    (tr0 : List Effect) (e0 : Err)
    (hA : p.isActive = true) (hU : p.url ≠ "")
    (hR : resolveHash w ph p.url p.revision = (tr0, Except.error e0)) :
    processProjects w ph (p :: rest) paths nph mods = (tr0, Except.error e0) := by
  conv_lhs => rw [processProjects.eq_def]
  simp [hA, hU, hR]

theorem processProjects_url_ok (w : World) (ph : ProjectHashes) (p : Project)
    (rest : List Project) (paths : List LinkPath) (nph : ProjectHashes) (mods : List String)
    (tr0 : List Effect) (h0 : String)
    (hA : p.isActive = true) (hU : p.url ≠ "")
    (hR : resolveHash w ph p.url p.revision = (tr0, Except.ok h0)) :
    processProjects w ph (p :: rest) paths nph mods =
      (tr0 ++ (processProjects w ph rest
          (paths ++ [⟨pathOf p.path, fetchgitSrc p.url p.revision h0, true⟩])
          (dictInsert (cacheKey w p.url p.revision) (mkEntry p.url p.revision h0) nph)
          (if w.fsExists (moduleYmlPath p.path) then mods ++ [p.path] else mods)).1,
        (processProjects w ph rest
          (paths ++ [⟨pathOf p.path, fetchgitSrc p.url p.revision h0, true⟩])
          (dictInsert (cacheKey w p.url p.revision) (mkEntry p.url p.revision h0) nph)
          (if w.fsExists (moduleYmlPath p.path) then mods ++ [p.path] else mods)).2) := by
  conv_lhs => rw [processProjects.eq_def]
  simp [hA, hU, hR]

theorem processProjects_trace (w : World) (ph : ProjectHashes) :
    ∀ (l : List Project) (paths : List LinkPath) (nph : ProjectHashes) (mods : List String)
      (e : Effect), e ∈ (processProjects w ph l paths nph mods).1 → isPrefetchE e = true := by
  intro l
  induction l with
  | nil =>
    intro paths nph mods e he
    simp [processProjects] at he
  | cons p rest ih =>
    intro paths nph mods e he
    cases hA : p.isActive with
    | false =>
      rw [processProjects_inactive w ph p rest paths nph mods hA] at he
      exact ih _ _ _ e he
    | true =>
      by_cases hU : p.url = ""
      · rw [processProjects_local w ph p rest paths nph mods hA hU] at he
        exact ih _ _ _ e he
      · rcases hR : resolveHash w ph p.url p.revision with ⟨tr0, r0⟩
        have htr0 : ∀ e ∈ tr0, isPrefetchE e = true := by
          intro e' he'
          refine resolveHash_trace_prefetch w ph p.url p.revision e' ?_
          rw [hR]
          exact he'
        rcases r0 with e0 | h0
        · rw [processProjects_url_error w ph p rest paths nph mods tr0 e0 hA hU hR] at he
          exact htr0 e he
        · rw [processProjects_url_ok w ph p rest paths nph mods tr0 h0 hA hU hR] at he
          simp only [List.mem_append] at he
          rcases he with he | he
          · exact htr0 e he
          · exact ih _ _ _ e he

theorem processProjects_error_kind (w : World) (ph : ProjectHashes) :
    ∀ (l : List Project) (paths : List LinkPath) (nph : ProjectHashes) (mods : List String)
      (tr : List Effect) (e : Err),
      processProjects w ph l paths nph mods = (tr, Except.error e) →
      ∃ u r, e = Err.prefetchFailed u r ∨ e = Err.prefetchKeyError u r := by
  intro l
  induction l with
  | nil =>
    intro paths nph mods tr e h
    simp [processProjects] at h
  | cons p rest ih =>
    intro paths nph mods tr e h
    cases hA : p.isActive with
    | false =>
      rw [processProjects_inactive w ph p rest paths nph mods hA] at h
      exact ih _ _ _ _ _ h
    | true =>
      by_cases hU : p.url = ""
      · rw [processProjects_local w ph p rest paths nph mods hA hU] at h
        exact ih _ _ _ _ _ h
      · rcases hR : resolveHash w ph p.url p.revision with ⟨tr0, r0⟩
        rcases r0 with e0 | h0
        · rw [processProjects_url_error w ph p rest paths nph mods tr0 e0 hA hU hR] at h
          have he0 : (resolveHash w ph p.url p.revision).2 = Except.error e0 := by
            rw [hR]
          have := resolveHash_error_kind w ph p.url p.revision e0 he0
          obtain ⟨rfl⟩ : e = e0 := by
            have := congrArg Prod.snd h
            simpa using this.symm
          exact ⟨p.url, p.revision, this⟩
        · rw [processProjects_url_ok w ph p rest paths nph mods tr0 h0 hA hU hR] at h
          rcases hrec : processProjects w ph rest
              (paths ++ [⟨pathOf p.path, fetchgitSrc p.url p.revision h0, true⟩])
              (dictInsert (cacheKey w p.url p.revision) (mkEntry p.url p.revision h0) nph)
              (if w.fsExists (moduleYmlPath p.path) then mods ++ [p.path] else mods)
            with ⟨trr, rr⟩
          rw [hrec] at h
          have h2 := congrArg Prod.snd h
          simp at h2
          exact ih _ _ _ trr e (by rw [hrec, h2])

theorem processProjects_count (w : World) (ph : ProjectHashes) :
    ∀ (l : List Project) (paths : List LinkPath) (nph : ProjectHashes) (mods : List String)
      (tr : List Effect) (res : List LinkPath × ProjectHashes × List String),
      processProjects w ph l paths nph mods = (tr, Except.ok res) →
      countPrefetch tr =
        (l.filter (fun p => p.isActive && p.url != ""
          && (hashLookup ph (cacheKey w p.url p.revision)).isNone)).length := by
  intro l
  induction l with
  | nil =>
    intro paths nph mods tr res h
    have h1 := congrArg Prod.fst h
    simp [processProjects] at h1
    subst h1
    simp [countPrefetch]
  | cons p rest ih =>
    intro paths nph mods tr res h
    cases hA : p.isActive with
    | false =>
      rw [processProjects_inactive w ph p rest paths nph mods hA] at h
      rw [List.filter_cons_of_neg (by simp [hA])]
      exact ih _ _ _ _ _ h
    | true =>
      by_cases hU : p.url = ""
      · rw [processProjects_local w ph p rest paths nph mods hA hU] at h
        rw [List.filter_cons_of_neg (by simp [hA, hU])]
        exact ih _ _ _ _ _ h
      · rcases hR : resolveHash w ph p.url p.revision with ⟨tr0, r0⟩
        rcases r0 with e0 | h0
        · rw [processProjects_url_error w ph p rest paths nph mods tr0 e0 hA hU hR] at h
          simp at h
        · rw [processProjects_url_ok w ph p rest paths nph mods tr0 h0 hA hU hR] at h
          rcases hrec : processProjects w ph rest
              (paths ++ [⟨pathOf p.path, fetchgitSrc p.url p.revision h0, true⟩])
              (dictInsert (cacheKey w p.url p.revision) (mkEntry p.url p.revision h0) nph)
              (if w.fsExists (moduleYmlPath p.path) then mods ++ [p.path] else mods)
            with ⟨trr, rr⟩
          rw [hrec] at h
          have h1 := congrArg Prod.fst h
          have h2 := congrArg Prod.snd h
          simp at h1 h2
          have hrec' : processProjects w ph rest
              (paths ++ [⟨pathOf p.path, fetchgitSrc p.url p.revision h0, true⟩])
              (dictInsert (cacheKey w p.url p.revision) (mkEntry p.url p.revision h0) nph)
              (if w.fsExists (moduleYmlPath p.path) then mods ++ [p.path] else mods)
              = (trr, Except.ok res) := by rw [hrec, h2]
          have hcount := ih _ _ _ _ _ hrec'
          rcases hL : hashLookup ph (cacheKey w p.url p.revision) with _ | hs
          · -- cache miss: one prefetch for this project
            have : tr0 = [Effect.prefetchGit p.url p.revision] := by
              have := resolveHash_fst_of_none w ph p.url p.revision hL
              rw [hR] at this
              exact this
            subst this
            rw [← h1]
            rw [List.filter_cons_of_pos (by simp [hA, hU, hL])]
            simp [countPrefetch, isPrefetchE, List.countP_append, List.countP_cons] at hcount ⊢
            omega
          · -- cache hit: no prefetch for this project
            have : tr0 = [] := by
              have := resolveHash_hit w ph p.url p.revision hs hL
              rw [hR] at this
              exact (congrArg Prod.fst this)
            subst this
            rw [← h1]
            rw [List.filter_cons_of_neg (by simp [hA, hU, hL])]
            simpa using hcount

theorem processProjects_ok_spec (w : World) (ph : ProjectHashes) :
    ∀ (l : List Project) (paths : List LinkPath) (nph : ProjectHashes) (mods : List String)
      (tr : List Effect) (paths' : List LinkPath) (nph' : ProjectHashes) (mods' : List String),
      processProjects w ph l paths nph mods = (tr, Except.ok (paths', nph', mods')) →
      ( (∀ a, a ∈ nph'.map Prod.fst ↔ a ∈ nph.map Prod.fst ∨ a ∈ keysOfList w l)
      ∧ ((nph.map Prod.fst).Nodup → (nph'.map Prod.fst).Nodup)
      ∧ ((∀ k h, hashLookup ph k = some h → k ∈ nph.map Prod.fst → hashLookup nph k = some h) →
         (∀ k h, hashLookup ph k = some h → k ∈ nph'.map Prod.fst → hashLookup nph' k = some h)) ) := by
  intro l
  induction l with
  | nil =>
    intro paths nph mods tr paths' nph' mods' h
    have := congrArg Prod.snd h
    simp [processProjects] at this
    obtain ⟨-, h2, -⟩ := this
    subst h2
    exact ⟨fun a => by simp [keysOfList], fun hn => hn, fun g => g⟩
  | cons p rest ih =>
    intro paths nph mods tr paths' nph' mods' h
    cases hA : p.isActive with
    | false =>
      rw [processProjects_inactive w ph p rest paths nph mods hA] at h
      have hkeys : keysOfList w (p :: rest) = keysOfList w rest := by
        simp [keysOfList, List.filter_cons_of_neg, hA]
      rw [hkeys]
      exact ih _ _ _ _ _ _ _ h
    | true =>
      by_cases hU : p.url = ""
      · rw [processProjects_local w ph p rest paths nph mods hA hU] at h
        have hkeys : keysOfList w (p :: rest) = keysOfList w rest := by
          simp [keysOfList, List.filter_cons_of_neg, hA, hU]
        rw [hkeys]
        exact ih _ _ _ _ _ _ _ h
      · rcases hR : resolveHash w ph p.url p.revision with ⟨tr0, r0⟩
        rcases r0 with e0 | h0
        · rw [processProjects_url_error w ph p rest paths nph mods tr0 e0 hA hU hR] at h
          simp at h
        · rw [processProjects_url_ok w ph p rest paths nph mods tr0 h0 hA hU hR] at h
          rcases hrec : processProjects w ph rest
              (paths ++ [⟨pathOf p.path, fetchgitSrc p.url p.revision h0, true⟩])
              (dictInsert (cacheKey w p.url p.revision) (mkEntry p.url p.revision h0) nph)
              (if w.fsExists (moduleYmlPath p.path) then mods ++ [p.path] else mods)
            with ⟨trr, rr⟩
          rw [hrec] at h
          have h2 := congrArg Prod.snd h
          simp at h2
          have hrec' : processProjects w ph rest
              (paths ++ [⟨pathOf p.path, fetchgitSrc p.url p.revision h0, true⟩])
              (dictInsert (cacheKey w p.url p.revision) (mkEntry p.url p.revision h0) nph)
              (if w.fsExists (moduleYmlPath p.path) then mods ++ [p.path] else mods)
              = (trr, Except.ok (paths', nph', mods')) := by rw [hrec, h2]
          obtain ⟨ihCov, ihNodup, ihGood⟩ := ih _ _ _ _ _ _ _ hrec'
          have hkeys : keysOfList w (p :: rest) =
              cacheKey w p.url p.revision :: keysOfList w rest := by
            simp [keysOfList, List.filter_cons_of_pos, hA, hU]
          refine ⟨?_, ?_, ?_⟩
          · intro a
            rw [ihCov a, mem_keys_dictInsert, hkeys]
            simp
            tauto
          · intro hnd
            exact ihNodup (nodup_keys_dictInsert _ _ _ hnd)
          · intro hGood
            refine ihGood ?_
            intro k hh hks hkmem
            by_cases hkk : k = cacheKey w p.url p.revision
            · subst hkk
              have hh0 : h0 = hh := by
                have := resolveHash_hit w ph p.url p.revision hh hks
                rw [hR] at this
                have := congrArg Prod.snd this
                simpa using this
              rw [hh0] at *
              exact hashLookup_dictInsert_self _ _ _ _ _
            · rw [hashLookup_dictInsert_ne _ _ _ _ hkk]
              rw [mem_keys_dictInsert] at hkmem
              rcases hkmem with rfl | hkmem
              · exact absurd rfl hkk
              · exact hGood k hh hks hkmem

theorem processProjects_congr (w : World) (ph₁ ph₂ : ProjectHashes) :
    ∀ (l : List Project),
      (∀ p ∈ l, p.isActive = true → p.url ≠ "" →
        hashLookup ph₁ (cacheKey w p.url p.revision) = hashLookup ph₂ (cacheKey w p.url p.revision)) →
      ∀ (paths : List LinkPath) (nph : ProjectHashes) (mods : List String),
        processProjects w ph₁ l paths nph mods = processProjects w ph₂ l paths nph mods := by
  intro l
  induction l with
  | nil =>
    intro _ paths nph mods
    simp [processProjects]
  | cons p rest ih =>
    intro hagree paths nph mods
    have hrest : ∀ p' ∈ rest, p'.isActive = true → p'.url ≠ "" →
        hashLookup ph₁ (cacheKey w p'.url p'.revision) = hashLookup ph₂ (cacheKey w p'.url p'.revision) := by
      intro p' hp' ha hu
      exact hagree p' (List.mem_cons_of_mem p hp') ha hu
    cases hA : p.isActive with
    | false =>
      rw [processProjects_inactive w ph₁ p rest paths nph mods hA,
        processProjects_inactive w ph₂ p rest paths nph mods hA]
      exact ih hrest _ _ _
    | true =>
      by_cases hU : p.url = ""
      · rw [processProjects_local w ph₁ p rest paths nph mods hA hU,
          processProjects_local w ph₂ p rest paths nph mods hA hU]
        exact ih hrest _ _ _
      · have hres : resolveHash w ph₁ p.url p.revision = resolveHash w ph₂ p.url p.revision :=
          resolveHash_congr w ph₁ ph₂ p.url p.revision
            (hagree p (List.mem_cons_self p rest) hA hU)
        rcases hR : resolveHash w ph₂ p.url p.revision with ⟨tr0, r0⟩
        have hR1 : resolveHash w ph₁ p.url p.revision = (tr0, r0) := by rw [hres, hR]
        rcases r0 with e0 | h0
        · rw [processProjects_url_error w ph₁ p rest paths nph mods tr0 e0 hA hU hR1,
            processProjects_url_error w ph₂ p rest paths nph mods tr0 e0 hA hU hR]
        · rw [processProjects_url_ok w ph₁ p rest paths nph mods tr0 h0 hA hU hR1,
            processProjects_url_ok w ph₂ p rest paths nph mods tr0 h0 hA hU hR]
          rw [ih hrest _ _ _]

theorem emitPrints_trace (failAt : Option Nat) :
    ∀ (ls : List String) (i : Nat) (e : Effect),
      e ∈ (emitPrints failAt i ls).1 → isPrintE e = true := by
  intro ls
  induction ls with
  | nil =>
    intro i e he
    simp [emitPrints] at he
  | cons s rest ih =>
    intro i e he
    unfold emitPrints at he
    by_cases hf : failAt = some i
    · rw [if_pos hf] at he
      simp at he
    · rw [if_neg hf] at he
      simp at he
      rcases he with rfl | he
      · rfl
      · exact ih _ e he

theorem emitPrints_error_kind (failAt : Option Nat) :
    ∀ (ls : List String) (i : Nat) (e : Err),
      (emitPrints failAt i ls).2 = Except.error e → e = Err.outputWriteFailed := by
  intro ls
  induction ls with
  | nil =>
    intro i e h
    simp [emitPrints] at h
  | cons s rest ih =>
    intro i e h
    unfold emitPrints at h
    by_cases hf : failAt = some i
    · rw [if_pos hf] at h
      simp at h
      exact h.symm
    · rw [if_neg hf] at h
      simp at h
      exact ih _ e h

theorem zephyrEmit_trace (w : World) (i : Nat) (mods : List String) :
    ∀ e ∈ (zephyrEmit w i mods).1, isPrintE e = true := by
  intro e he
  unfold zephyrEmit at he
  split at he
  · simp at he
  · split at he
    · simp at he
    · split at he
      · simp at he
      · simp at he
        subst he
        rfl

theorem zephyrEmit_error_kind (w : World) (i : Nat) (mods : List String) (e : Err)
    (h : (zephyrEmit w i mods).2 = Except.error e) :
    e = Err.outputWriteFailed ∨ e = Err.zephyrRelError := by
  unfold zephyrEmit at h
  split at h
  · simp at h
  · split at h
    · simp at h
      exact Or.inr h.symm
    · split at h
      · simp at h
        exact Or.inl h.symm
      · simp at h

theorem writtenCache_append_last (l : List Effect) (c : ProjectHashes) :
    writtenCache (l ++ [Effect.writeCache c]) = some c := by
  unfold writtenCache
  rw [List.foldl_append]
  rfl

theorem not_write_of_prefetchE (e : Effect) (h : isPrefetchE e = true) :
    ∀ c, e ≠ Effect.writeCache c := by
  cases e <;> simp [isPrefetchE] at h ⊢

theorem not_write_of_printE (e : Effect) (h : isPrintE e = true) :
    ∀ c, e ≠ Effect.writeCache c := by
  cases e <;> simp [isPrintE] at h ⊢

theorem writtenCache_eq_none : ∀ (l : List Effect),
    (∀ e ∈ l, ∀ c, e ≠ Effect.writeCache c) → writtenCache l = none := by
  intro l
  induction l with
  | nil =>
    intro _
    rfl
  | cons e rest ih =>
    intro h
    have he := h e (List.mem_cons_self e rest)
    have hstep : writeStep none e = none := by
      cases e with
      | writeCache c => exact absurd rfl (he c)
      | prefetchGit u r => rfl
      | openOutput => rfl
      | printOutput s => rfl
    unfold writtenCache at ih ⊢
    rw [List.foldl_cons, hstep]
    exact ih (fun e' he' c => h e' (List.mem_cons_of_mem _ he') c)

theorem emitPhase_print_error (w : World) (paths : List LinkPath) (nph : ProjectHashes)
    (mods : List String) (tr2 : List Effect) (e : Err)
    (hE : emitPrints w.failAtPrint 0 (preambleText :: (paths ++ blobLinks w).map renderLink)
      = (tr2, Except.error e)) :
    emitPhase w paths nph mods = (Effect.openOutput :: tr2, Except.error e) := by
  unfold emitPhase
  rw [hE]

theorem emitPhase_zephyr_error (w : World) (paths : List LinkPath) (nph : ProjectHashes)
    (mods : List String) (tr2 tr3 : List Effect) (n : Nat) (e : Err)
    (hE : emitPrints w.failAtPrint 0 (preambleText :: (paths ++ blobLinks w).map renderLink)
      = (tr2, Except.ok n))
    (hZ : zephyrEmit w n mods = (tr3, Except.error e)) :
    emitPhase w paths nph mods = (Effect.openOutput :: (tr2 ++ tr3), Except.error e) := by
  unfold emitPhase
  rw [hE]
  dsimp only
  rw [hZ]

theorem emitPhase_ok (w : World) (paths : List LinkPath) (nph : ProjectHashes)
    (mods : List String) (tr2 tr3 : List Effect) (n : Nat)
    (hE : emitPrints w.failAtPrint 0 (preambleText :: (paths ++ blobLinks w).map renderLink)
      = (tr2, Except.ok n))
    (hZ : zephyrEmit w n mods = (tr3, Except.ok ())) :
    emitPhase w paths nph mods
      = (Effect.openOutput :: (tr2 ++ (tr3 ++ [Effect.writeCache nph])), Except.ok ()) := by
  unfold emitPhase
  rw [hE]
  dsimp only
  rw [hZ]

theorem doRun_of_error (w : World) (cf : CacheFile) (tr : List Effect) (e : Err)
    (hP : processProjects w (loadPH cf) w.projects [] [] [] = (tr, Except.error e)) :
    doRun w cf = (tr, Except.error e) := by
  unfold doRun doRunPH
  rw [hP]

theorem doRun_of_ok (w : World) (cf : CacheFile) (tr : List Effect)
    (paths : List LinkPath) (nph : ProjectHashes) (mods : List String)
    (hP : processProjects w (loadPH cf) w.projects [] [] [] = (tr, Except.ok (paths, nph, mods))) :
    doRun w cf = (tr ++ (emitPhase w paths nph mods).1, (emitPhase w paths nph mods).2) := by
  unfold doRun doRunPH
  rw [hP]

theorem doRun_ok_shape (w : World) (cf : CacheFile) (h : (doRun w cf).2 = Except.ok ()) :
    ∃ tr paths nph mods tr2 tr3 n,
      processProjects w (loadPH cf) w.projects [] [] [] = (tr, Except.ok (paths, nph, mods)) ∧
      emitPrints w.failAtPrint 0 (preambleText :: (paths ++ blobLinks w).map renderLink)
        = (tr2, Except.ok n) ∧
      zephyrEmit w n mods = (tr3, Except.ok ()) ∧
      (doRun w cf).1 = tr ++ Effect.openOutput :: (tr2 ++ (tr3 ++ [Effect.writeCache nph])) := by
  rcases hP : processProjects w (loadPH cf) w.projects [] [] [] with ⟨tr, r⟩
  rcases r with e0 | ⟨paths, nph, mods⟩
  · rw [doRun_of_error w cf tr e0 hP] at h
    simp at h
  · rcases hE : emitPrints w.failAtPrint 0 (preambleText :: (paths ++ blobLinks w).map renderLink)
      with ⟨tr2, r2⟩
    rcases r2 with e2 | n
    · rw [doRun_of_ok w cf tr paths nph mods hP,
        emitPhase_print_error w paths nph mods tr2 e2 hE] at h
      simp at h
    · rcases hZ : zephyrEmit w n mods with ⟨tr3, r3⟩
      rcases r3 with e3 | u
      · rw [doRun_of_ok w cf tr paths nph mods hP,
          emitPhase_zephyr_error w paths nph mods tr2 tr3 n e3 hE hZ] at h
        simp at h
      · cases u
        refine ⟨tr, paths, nph, mods, tr2, tr3, n, rfl, hE, hZ, ?_⟩
        rw [doRun_of_ok w cf tr paths nph mods hP,
          emitPhase_ok w paths nph mods tr2 tr3 n hE hZ]

theorem doRun_error_shape (w : World) (cf : CacheFile) (e : Err)
    (h : (doRun w cf).2 = Except.error e) :
    ((doRun w cf).1 = (processProjects w (loadPH cf) w.projects [] [] []).1 ∧
      (processProjects w (loadPH cf) w.projects [] [] []).2 = Except.error e)
    ∨ (∃ tr paths nph mods tr2,
        processProjects w (loadPH cf) w.projects [] [] [] = (tr, Except.ok (paths, nph, mods)) ∧
        (doRun w cf).1 = tr ++ Effect.openOutput :: tr2 ∧
        (∀ e' ∈ tr2, isPrintE e' = true) ∧
        (e = Err.outputWriteFailed ∨ e = Err.zephyrRelError)) := by
  rcases hP : processProjects w (loadPH cf) w.projects [] [] [] with ⟨tr, r⟩
  rcases r with e0 | ⟨paths, nph, mods⟩
  · rw [doRun_of_error w cf tr e0 hP] at h ⊢
    simp at h
    subst h
    exact Or.inl ⟨rfl, rfl⟩
  · rcases hE : emitPrints w.failAtPrint 0 (preambleText :: (paths ++ blobLinks w).map renderLink)
      with ⟨tr2, r2⟩
    rcases r2 with e2 | n
    · rw [doRun_of_ok w cf tr paths nph mods hP,
        emitPhase_print_error w paths nph mods tr2 e2 hE] at h ⊢
      simp at h
      subst h
      right
      refine ⟨tr, paths, nph, mods, tr2, rfl, by simp, ?_, ?_⟩
      · intro e' he'
        have := emitPrints_trace w.failAtPrint
          (preambleText :: (paths ++ blobLinks w).map renderLink) 0 e'
        rw [hE] at this
        exact this he'
      · have := emitPrints_error_kind w.failAtPrint
          (preambleText :: (paths ++ blobLinks w).map renderLink) 0 e2
        rw [hE] at this
        exact Or.inl (this rfl)
    · rcases hZ : zephyrEmit w n mods with ⟨tr3, r3⟩
      rcases r3 with e3 | u
      · rw [doRun_of_ok w cf tr paths nph mods hP,
          emitPhase_zephyr_error w paths nph mods tr2 tr3 n e3 hE hZ] at h ⊢
        simp at h
        subst h
        right
        refine ⟨tr, paths, nph, mods, tr2 ++ tr3, rfl, by simp, ?_, ?_⟩
        · intro e' he'
          rw [List.mem_append] at he'
          rcases he' with he' | he'
          · have := emitPrints_trace w.failAtPrint
              (preambleText :: (paths ++ blobLinks w).map renderLink) 0 e'
            rw [hE] at this
            exact this he'
          · have := zephyrEmit_trace w n mods e'
            rw [hZ] at this
            exact this he'
        · have := zephyrEmit_error_kind w n mods e3
          rw [hZ] at this
          exact this rfl
      · cases u
        rw [doRun_of_ok w cf tr paths nph mods hP,
          emitPhase_ok w paths nph mods tr2 tr3 n hE hZ] at h
        simp at h

theorem doRun_ok_written (w : World) (cf : CacheFile) (h : (doRun w cf).2 = Except.ok ()) :
    ∃ tr paths nph mods,
      processProjects w (loadPH cf) w.projects [] [] [] = (tr, Except.ok (paths, nph, mods)) ∧
      writtenCache (doRun w cf).1 = some nph := by
  obtain ⟨tr, paths, nph, mods, tr2, tr3, n, hP, hE, hZ, hTr⟩ := doRun_ok_shape w cf h
  refine ⟨tr, paths, nph, mods, hP, ?_⟩
  rw [hTr]
  have hassoc : tr ++ Effect.openOutput :: (tr2 ++ (tr3 ++ [Effect.writeCache nph]))
      = (tr ++ Effect.openOutput :: (tr2 ++ tr3)) ++ [Effect.writeCache nph] := by
    simp
  rw [hassoc, writtenCache_append_last]

theorem doRun_error_no_write (w : World) (cf : CacheFile) (e : Err)
    (h : (doRun w cf).2 = Except.error e) :
    writtenCache (doRun w cf).1 = none := by
  rcases doRun_error_shape w cf e h with ⟨h1, _⟩ |
    ⟨tr, paths, nph, mods, tr2, hP, hTr, hShape, _⟩
  · rw [h1]
    apply writtenCache_eq_none
    intro e' he' c
    exact not_write_of_prefetchE e'
      (processProjects_trace w (loadPH cf) w.projects [] [] [] e' he') c
  · rw [hTr]
    apply writtenCache_eq_none
    intro e' he' c
    simp only [List.mem_append, List.mem_cons] at he'
    rcases he' with he' | he' | he'
    · have := processProjects_trace w (loadPH cf) w.projects [] [] [] e'
      rw [hP] at this
      exact not_write_of_prefetchE e' (this he') c
    · subst he'
      simp
    · exact not_write_of_printE e' (hShape e' he') c

theorem cacheAfter_of_error (w : World) (cf : CacheFile) (e : Err)
    (h : (doRun w cf).2 = Except.error e) : cacheAfter w cf = cf := by
  unfold cacheAfter
  rw [doRun_error_no_write w cf e h]

theorem cacheAfter_written (w : World) (cf : CacheFile) (c : ProjectHashes)
    (h : writtenCache (doRun w cf).1 = some c) :
    cacheAfter w cf = CacheFile.valid (some c) [] := by
  unfold cacheAfter
  rw [h]

theorem isPrefetchE_false_of_printE (e : Effect) (h : isPrintE e = true) :
    isPrefetchE e = false := by
  cases e <;> simp [isPrintE, isPrefetchE] at h ⊢

theorem countPrefetch_zero_of_print (l : List Effect)
    (h : ∀ e ∈ l, isPrintE e = true) : countPrefetch l = 0 := by
  unfold countPrefetch
  rw [List.countP_eq_zero]
  intro e he
  simp [isPrefetchE_false_of_printE e (h e he)]

theorem doRun_count (w : World) (cf : CacheFile) (h : (doRun w cf).2 = Except.ok ()) :
    countPrefetch (doRun w cf).1 = missCount w cf := by
  obtain ⟨tr, paths, nph, mods, tr2, tr3, n, hP, hE, hZ, hTr⟩ := doRun_ok_shape w cf h
  have hc := processProjects_count w (loadPH cf) w.projects [] [] [] tr (paths, nph, mods) hP
  have z2 : countPrefetch tr2 = 0 := by
    apply countPrefetch_zero_of_print
    intro e' he'
    have := emitPrints_trace w.failAtPrint
      (preambleText :: (paths ++ blobLinks w).map renderLink) 0 e'
    rw [hE] at this
    exact this he'
  have z3 : countPrefetch tr3 = 0 := by
    apply countPrefetch_zero_of_print
    intro e' he'
    have := zephyrEmit_trace w n mods e'
    rw [hZ] at this
    exact this he'
  rw [hTr]
  unfold countPrefetch at z2 z3 hc ⊢
  simp only [List.countP_append, List.countP_cons]
  simp [z2, z3, isPrefetchE]
  unfold missCount
  rw [← hc]

/-- Claim C1: the CacheKey is claimed to be a deterministic, collision-free
function of `(url, revision, tag)`. Determinism holds, but collision-freedom
fails: the digest input is the plain concatenation `url ++ revision ++
"manifest-rev"`, so the distinct pairs `("ab", "c")` and `("a", "bc")` feed
identical bytes to SHA-256 and receive the same cache key, whatever the
digest function is. -/
theorem c1_cache_key_collision :
    ∀ w : World,
      cacheKey w ("ab") ("c") = cacheKey w ("a") ("bc")
      ∧ ((("ab") : String), (("c") : String)) ≠ ((("a") : String), (("bc") : String)) :=
  fun w => ⟨congrArg w.sha256 (by decide), by decide⟩

/-- The run over the duplicate-project pair makes two prefetch calls for
the one shared missing key, whatever the digest oracle is: the miss check
consults only the cache loaded at run start, never the entries accumulated
during the run. -/
theorem duplicate_projects_prefetch_count :
    ∀ f : String → String,
      c2proj1 ≠ c2proj2
      ∧ c2proj1.url = c2proj2.url ∧ c2proj1.revision = c2proj2.revision
      ∧ c2proj1.isActive = true ∧ c2proj2.isActive = true
      ∧ hashLookup (loadPH CacheFile.missing)
          (cacheKey (c2world f) c2proj1.url c2proj1.revision) = none
      ∧ (doRun (c2world f) CacheFile.missing).2 = Except.ok ()
      ∧ countPrefetch ((doRun (c2world f) CacheFile.missing).1) = 2 :=
  fun _ => ⟨by decide, rfl, rfl, rfl, rfl, rfl, rfl, rfl⟩

/-- Claim C2, counterexample: two distinct active projects sharing
`(url, revision)`, with their one CacheKey absent from the loaded cache,
make the run invoke `nix-prefetch-git` twice — not once per distinct
CacheKey as claimed. -/
theorem c2_duplicate_projects_two_prefetches :
    c2proj1 ≠ c2proj2
    ∧ c2proj1.url = c2proj2.url ∧ c2proj1.revision = c2proj2.revision
    ∧ c2proj1.isActive = true ∧ c2proj2.isActive = true
    ∧ hashLookup (loadPH CacheFile.missing)
        (cacheKey (c2world (fun s => s)) c2proj1.url c2proj1.revision) = none
    ∧ (doRun (c2world (fun s => s)) CacheFile.missing).2 = Except.ok ()
    ∧ countPrefetch ((doRun (c2world (fun s => s)) CacheFile.missing).1) = 2 :=
  duplicate_projects_prefetch_count (fun s => s)

/-- Claim C2 (amended): on every successful run the prefetch collaborator is
invoked exactly once per active remote project whose CacheKey has no hash in
the cache loaded at run start — counted per project, not per distinct key,
so duplicate `(url, revision)` projects each trigger their own call. -/
theorem c2_one_prefetch_per_missing_project (w : World) (cf : CacheFile)
    (h : (doRun w cf).2 = Except.ok ()) :
    countPrefetch (doRun w cf).1 = missCount w cf :=
  doRun_count w cf h

theorem c2_one_prefetch_per_missing_project_witness :
    (doRun (c2world (fun s => s)) CacheFile.missing).2 = Except.ok ()
    ∧ countPrefetch ((doRun (c2world (fun s => s)) CacheFile.missing).1)
        = missCount (c2world (fun s => s)) CacheFile.missing :=
  ⟨rfl, c2_one_prefetch_per_missing_project (c2world (fun s => s)) CacheFile.missing rfl⟩

/-- Claim C3: when the computed CacheKey is present in the loaded cache with
a stored hash, the per-project resolution returns the stored hash and its
effect trace is empty — `nix-prefetch-git` is never invoked for that
project. -/
theorem c3_cache_hit_no_prefetch (w : World) (ph : ProjectHashes) (u r hs : String)
    (hhit : hashLookup ph (cacheKey w u r) = some hs) :
    resolveHash w ph u r = ([], Except.ok hs) :=
  resolveHash_hit w ph u r hs hhit

theorem c3_cache_hit_no_prefetch_witness :
    hashLookup c3ph (cacheKey baseWorld ("u") ("r")) = some ("H")
    ∧ resolveHash baseWorld c3ph ("u") ("r") = ([], Except.ok ("H")) :=
  ⟨rfl, c3_cache_hit_no_prefetch baseWorld c3ph ("u") ("r") ("H") rfl⟩

/-- Claim C4: the cache persisted by a successful run holds exactly one
entry per distinct CacheKey of the currently active remote projects — keys
are free of duplicates, no other key appears, and an entry whose key had a
hash in the loaded cache keeps that hash. -/
theorem c4_cache_gc (w : World) (cf : CacheFile) (nc : ProjectHashes)
    (h : writtenCache (doRun w cf).1 = some nc) :
    (nc.map Prod.fst).Nodup
    ∧ (∀ k, k ∈ nc.map Prod.fst ↔ k ∈ activeKeys w)
    ∧ (∀ k hs, k ∈ activeKeys w → hashLookup (loadPH cf) k = some hs →
        hashLookup nc k = some hs) := by
  rcases hr : (doRun w cf).2 with e | u
  · rw [doRun_error_no_write w cf e hr] at h
    simp at h
  · cases u
    obtain ⟨tr, paths, nph, mods, hP, hW⟩ := doRun_ok_written w cf hr
    rw [hW] at h
    have hnc : nph = nc := Option.some.inj h
    subst hnc
    obtain ⟨cov, nodup, good⟩ :=
      processProjects_ok_spec w (loadPH cf) w.projects [] [] [] tr paths nph mods hP
    have hGood := good (by intro k hs _ hk; simp at hk)
    refine ⟨nodup (by simp), ?_, ?_⟩
    · intro k
      rw [cov k]
      simp [activeKeys]
    · intro k hs hk hsome
      refine hGood k hs hsome ?_
      rw [cov k]
      right
      exact hk

set_option maxRecDepth 8000 in
theorem c4_cache_gc_witness :
    writtenCache ((doRun c4world c4cf).1) = some c4nc
    ∧ (c4nc.map Prod.fst).Nodup := by
  have hw : writtenCache ((doRun c4world c4cf).1) = some c4nc := by decide
  exact ⟨hw, (c4_cache_gc c4world c4cf c4nc hw).1⟩

/-- Claim C5: a prefetch failure (subprocess error/unparsable output, or a
result lacking the `hash` member) aborts the run before the output file is
opened or written and before any cache write, leaving the cache-file state
untouched. -/
theorem c5_prefetch_failure_aborts_early (w : World) (cf : CacheFile) (u r : String)
    (h : (doRun w cf).2 = Except.error (Err.prefetchFailed u r) ∨
         (doRun w cf).2 = Except.error (Err.prefetchKeyError u r)) :
    Effect.openOutput ∉ (doRun w cf).1
    ∧ (∀ c, Effect.writeCache c ∉ (doRun w cf).1)
    ∧ cacheAfter w cf = cf := by
  have hex : ∃ e, (doRun w cf).2 = Except.error e ∧
      (e = Err.prefetchFailed u r ∨ e = Err.prefetchKeyError u r) := by
    rcases h with h | h
    · exact ⟨_, h, Or.inl rfl⟩
    · exact ⟨_, h, Or.inr rfl⟩
  obtain ⟨e, he, hkind⟩ := hex
  rcases doRun_error_shape w cf e he with ⟨h1, _⟩ |
    ⟨tr, paths, nph, mods, tr2, hP, hTr, hShape, hK⟩
  · refine ⟨?_, ?_, cacheAfter_of_error w cf e he⟩
    · intro hmem
      rw [h1] at hmem
      have := processProjects_trace w (loadPH cf) w.projects [] [] [] Effect.openOutput hmem
      simp [isPrefetchE] at this
    · intro c hmem
      rw [h1] at hmem
      have := processProjects_trace w (loadPH cf) w.projects [] [] []
        (Effect.writeCache c) hmem
      simp [isPrefetchE] at this
  · exfalso
    rcases hkind with rfl | rfl <;> rcases hK with hK | hK <;> simp at hK

theorem c5_prefetch_failure_aborts_early_witness :
    (doRun c5world CacheFile.missing).2 = Except.error (Err.prefetchFailed ("u") ("r"))
    ∧ cacheAfter c5world CacheFile.missing = CacheFile.missing :=
  ⟨rfl,
    (c5_prefetch_failure_aborts_early c5world CacheFile.missing ("u") ("r") (Or.inl rfl)).2.2⟩

set_option maxRecDepth 100000 in
/-- Claim C6: untrusted values are claimed to appear only inside properly
escaped literals. They do not: a destination path containing a single quote
is interpolated into the plain `\x27...\x27` shell quoting of the emitted
script, where its quote closes the literal early — the generated text for
path `a\x27b` contains `"$out"/\x27a\x27b\x27`, which shell-lexes as the word `a`
followed by material outside any quoted context, not as the intended path. -/
theorem c6_single_quote_breakout :
    (("\x22$out\x22/\x27a\x27b\x27").data) <:+: ((outputOf c6world CacheFile.missing).data)
    ∧ readSingleQuoted (("\x27a\x27b\x27").data) = some ((("a").data), (("b\x27").data))
    ∧ (("a") : String) ≠ ("a\x27b") :=
  ⟨by decide, by decide, by decide⟩

/-- Claim C7: with a run that succeeds and a loaded cache holding a hash for
every active remote project, running again on the persisted cache replays
the identical run — byte-identical output text and an unchanged cache
file. -/
theorem c7_idempotent (w : World) (cf : CacheFile)
    (hok : (doRun w cf).2 = Except.ok ())
    (hhits : ∀ p ∈ w.projects, p.isActive = true → p.url ≠ "" →
      (hashLookup (loadPH cf) (cacheKey w p.url p.revision)).isSome = true) :
    doRun w (cacheAfter w cf) = doRun w cf
    ∧ outputOf w (cacheAfter w cf) = outputOf w cf
    ∧ cacheAfter w (cacheAfter w cf) = cacheAfter w cf := by
  obtain ⟨tr, paths, nph, mods, hP, hW⟩ := doRun_ok_written w cf hok
  have hCA : cacheAfter w cf = CacheFile.valid (some nph) [] :=
    cacheAfter_written w cf nph hW
  have hload : loadPH (cacheAfter w cf) = nph := by
    rw [hCA]
    rfl
  obtain ⟨cov, -, good⟩ :=
    processProjects_ok_spec w (loadPH cf) w.projects [] [] [] tr paths nph mods hP
  have hGood := good (by intro k hs _ hk; simp at hk)
  have hagree : ∀ p ∈ w.projects, p.isActive = true → p.url ≠ "" →
      hashLookup nph (cacheKey w p.url p.revision)
        = hashLookup (loadPH cf) (cacheKey w p.url p.revision) := by
    intro p hp hA hU
    obtain ⟨hs, hsome⟩ := Option.isSome_iff_exists.mp (hhits p hp hA hU)
    have hkmem : cacheKey w p.url p.revision ∈ nph.map Prod.fst := by
      rw [cov]
      right
      unfold keysOfList
      refine List.mem_map.mpr ⟨p, List.mem_filter.mpr ⟨hp, ?_⟩, rfl⟩
      simp [hA, hU]
    rw [hGood _ _ hsome hkmem, hsome]
  have hdr : doRun w (cacheAfter w cf) = doRun w cf := by
    unfold doRun doRunPH
    rw [hload, processProjects_congr w nph (loadPH cf) w.projects hagree [] [] []]
  refine ⟨hdr, ?_, ?_⟩
  · unfold outputOf
    rw [hdr]
  · have hW2 : writtenCache (doRun w (cacheAfter w cf)).1 = some nph := by
      rw [hdr]
      exact hW
    rw [cacheAfter_written w (cacheAfter w cf) nph hW2, ← hCA]

theorem c7_idempotent_witness :
    (doRun c7world c7cf).2 = Except.ok ()
    ∧ outputOf c7world (cacheAfter c7world c7cf) = outputOf c7world c7cf := by
  have h1 : (doRun c7world c7cf).2 = Except.ok () := rfl
  have h2 : ∀ p ∈ c7world.projects, p.isActive = true → p.url ≠ "" →
      (hashLookup (loadPH c7cf) (cacheKey c7world p.url p.revision)).isSome = true := by
    decide
  exact ⟨h1, (c7_idempotent c7world c7cf h1 h2).2.1⟩

/-- Claim C8: the cache write is the last effect of a successful run — after
every output write — and when an output write fails the run carries no cache
write at all and the cache file is left intact. -/
theorem c8_cache_write_last (w : World) (cf : CacheFile) :
    ((doRun w cf).2 = Except.error Err.outputWriteFailed →
      (∀ c, Effect.writeCache c ∉ (doRun w cf).1) ∧ cacheAfter w cf = cf)
    ∧ ((doRun w cf).2 = Except.ok () →
      ∃ tr c, (doRun w cf).1 = tr ++ [Effect.writeCache c]
        ∧ ∀ c', Effect.writeCache c' ∉ tr) := by
  constructor
  · intro h
    rcases doRun_error_shape w cf _ h with ⟨h1, h2⟩ |
      ⟨tr, paths, nph, mods, tr2, hP, hTr, hShape, _⟩
    · exfalso
      rcases hPP : processProjects w (loadPH cf) w.projects [] [] [] with ⟨tr0, r0⟩
      rw [hPP] at h2
      simp at h2
      subst h2
      obtain ⟨u, r, hk | hk⟩ := processProjects_error_kind w (loadPH cf) w.projects [] [] []
        tr0 Err.outputWriteFailed hPP <;> simp at hk
    · refine ⟨?_, cacheAfter_of_error w cf _ h⟩
      intro c hmem
      rw [hTr] at hmem
      simp only [List.mem_append, List.mem_cons] at hmem
      rcases hmem with hm | hm | hm
      · have := processProjects_trace w (loadPH cf) w.projects [] [] [] (Effect.writeCache c)
        rw [hP] at this
        exact absurd rfl (not_write_of_prefetchE _ (this hm) c)
      · simp at hm
      · exact absurd rfl (not_write_of_printE _ (hShape _ hm) c)
  · intro h
    obtain ⟨tr, paths, nph, mods, tr2, tr3, n, hP, hE, hZ, hTr⟩ := doRun_ok_shape w cf h
    refine ⟨tr ++ Effect.openOutput :: (tr2 ++ tr3), nph, ?_, ?_⟩
    · rw [hTr]
      simp
    · intro c' hmem
      simp only [List.mem_append, List.mem_cons] at hmem
      rcases hmem with hm | hm | hm | hm
      · have := processProjects_trace w (loadPH cf) w.projects [] [] [] (Effect.writeCache c')
        rw [hP] at this
        exact absurd rfl (not_write_of_prefetchE _ (this hm) c')
      · simp at hm
      · have := emitPrints_trace w.failAtPrint
          (preambleText :: (paths ++ blobLinks w).map renderLink) 0 (Effect.writeCache c')
        rw [hE] at this
        exact absurd rfl (not_write_of_printE _ (this hm) c')
      · have := zephyrEmit_trace w n mods (Effect.writeCache c')
        rw [hZ] at this
        exact absurd rfl (not_write_of_printE _ (this hm) c')

theorem c8_cache_write_last_witness :
    (doRun c8world CacheFile.missing).2 = Except.error Err.outputWriteFailed
    ∧ cacheAfter c8world CacheFile.missing = CacheFile.missing :=
  ⟨rfl, ((c8_cache_write_last c8world CacheFile.missing).1 rfl).2⟩

/-- Claim C9: loading the cache never raises: every modelled cache-file
state yields a loaded table, the missing-file and invalid-JSON states both
silently degrade to the same empty table, and the two are
indistinguishable. -/
theorem c9_load_never_raises :
    (∀ f, ∃ t, loadCacheTry f = Except.ok t)
    ∧ loadCacheTry CacheFile.missing = Except.ok []
    ∧ loadCacheTry CacheFile.invalidJson = Except.ok []
    ∧ loadCacheTry CacheFile.missing = loadCacheTry CacheFile.invalidJson := by
  refine ⟨?_, rfl, rfl, rfl⟩
  intro f
  cases f <;> exact ⟨_, rfl⟩

/-- Claim C10: only the `hash` member is honored — a cached entry present
under the right key but lacking `hash` behaves as a miss and triggers a
fresh prefetch, and a prefetch result without `hash` aborts the run fatally
even when a `sha256` member is present. -/
theorem c10_only_hash_field (w : World) (ph : ProjectHashes) (u r : String)
    (ef : EntryFields)
    (h1 : alookup (cacheKey w u r) ph = some ef)
    (h2 : alookup ("hash") ef = none) :
    (resolveHash w ph u r).1 = [Effect.prefetchGit u r]
    ∧ (∀ obj s, w.prefetch u r = some obj → alookup ("hash") obj = none →
        alookup ("sha256") obj = some s →
        (resolveHash w ph u r).2 = Except.error (Err.prefetchKeyError u r)) := by
  have hm : hashLookup ph (cacheKey w u r) = none := by
    unfold hashLookup
    rw [h1]
    dsimp only
    exact h2
  refine ⟨resolveHash_fst_of_none w ph u r hm, ?_⟩
  intro obj s hpre hh _
  unfold resolveHash
  rw [hm]
  dsimp only
  rw [hpre]
  dsimp only
  rw [hh]

theorem c10_only_hash_field_witness :
    alookup (cacheKey c10world ("u") ("r")) c10ph = some [(("url"), ("u"))]
    ∧ alookup ("hash") [(("url"), ("u"))] = none
    ∧ (resolveHash c10world c10ph ("u") ("r")).1 = [Effect.prefetchGit ("u") ("r")]
    ∧ (resolveHash c10world c10ph ("u") ("r")).2
        = Except.error (Err.prefetchKeyError ("u") ("r")) := by
  have hthm := c10_only_hash_field c10world c10ph ("u") ("r") [(("url"), ("u"))] rfl rfl
  exact ⟨rfl, rfl, hthm.1, hthm.2 [(("sha256"), ("S"))] ("S") rfl rfl rfl⟩

end WestNix
